import Mathlib

/-!
Shallow embedding of `.github/actions/smoke-test/smoke.py`: the byte-level
placeholder substitution engine, the template option resolver, the workspace
file-copy operations, and the subprocess-driven build/test actions, together
with theorems about the behaviour of these operations.

File contents are modelled as byte lists (`List Nat`), a filesystem as a flat
list of nodes keyed by path segments (`List String`), and external process
invocations as functions of an abstract captured result.
-/

namespace Smoke

/-- UTF-8 encoding of one character (the standard scalar-value encoding, as
performed by Python `str.encode("utf-8")`). -/
def encodeChar (c : Char) : List Nat :=
  let n := c.toNat
  if n < 128 then [n]
  else if n < 2048 then [192 + n / 64, 128 + n % 64]
  else if n < 65536 then [224 + n / 4096, 128 + n / 64 % 64, 128 + n % 64]
  else [240 + n / 262144, 128 + n / 4096 % 64, 128 + n / 64 % 64, 128 + n % 64]

/-- UTF-8 bytes of a string, as Python `s.encode("utf-8")`. -/
def strBytes (s : String) : List Nat := (s.data.map encodeChar).flatten

/-- One left-to-right scan of Python `bytes.replace` for a non-empty pattern:
at a match the replacement is emitted and the matched bytes are skipped (the
replacement is not rescanned); otherwise one byte is copied. `fuel` bounds
the recursion and is instantiated with the content length. -/
def replaceGo (search repl : List Nat) : Nat → List Nat → List Nat
  | _, [] => []
  | 0, l => l
  | fuel + 1, c :: rest =>
    if search.isPrefixOf (c :: rest) then
      repl ++ replaceGo search repl fuel ((c :: rest).drop search.length)
    else
      c :: replaceGo search repl fuel rest

/-- Python `content.replace(search, repl)` on bytes, non-empty pattern. -/
def replaceAllB (search repl content : List Nat) : List Nat :=
  replaceGo search repl content.length content

/-- Python `content.replace(search, repl)` on bytes, including the
empty-pattern case (`b"ab".replace(b"", b"X") = b"XaXbX"`). -/
def pyBytesReplace (search repl content : List Nat) : List Nat :=
  if search.isEmpty then repl ++ (content.map (fun c => c :: repl)).flatten
  else replaceAllB search repl content

/-- Python substring test `search in content` on bytes. -/
def containsSub (search content : List Nat) : Bool :=
  (List.range (content.length + 1)).any (fun i => search.isPrefixOf (content.drop i))

/-- Number of positions at which `search` occurs in `content`. -/
def occCount (search content : List Nat) : Nat :=
  ((List.range (content.length + 1)).filter
    (fun i => search.isPrefixOf (content.drop i))).length

/-- Content of a regular file after the loop body of `replace_in_files`
processed it: the file is rewritten only when the search bytes occur. -/
def fileAfterReplace (search repl content : List Nat) : List Nat :=
  if containsSub search content then pyBytesReplace search repl content else content

/-- Whether `replace_in_files` rewrites the file on disk: the search bytes
occur and the replacement actually changes the content. A file with
`fileRewritten = false` keeps its modification metadata. -/
def fileRewritten (search repl content : List Nat) : Bool :=
  containsSub search content && !(pyBytesReplace search repl content == content)

/-- Kind of a filesystem node: regular file with its bytes, directory,
symbolic link with its target, or any other special file (FIFO, socket,
device). -/
inductive NodeKind where
  | file (content : List Nat)
  | dir
  | symlink (target : String)
  | special
deriving DecidableEq

/-- One filesystem entry: its path (as segments) and its node kind. -/
structure FSNode where
  path : List String
  node : NodeKind
deriving DecidableEq

/-- The loop body of `replace_in_files` on one entry: a regular file gets
the literal byte replacement applied; directories and other entries are
skipped (`if not path.is_file(): continue`). -/
def processNode (search repl : List Nat) (e : FSNode) : FSNode :=
  match e.node with
  | .file c => ⟨e.path, .file (fileAfterReplace search repl c)⟩
  | _ => e

/-- `replace_in_files(root, search_term, replacement)` over the recursive
walk `root.rglob("*")`. -/
def replace_in_files (search repl : List Nat) (fs : List FSNode) : List FSNode :=
  fs.map (processNode search repl)

/-- `True` on the search test applied to a regular file node, `false` on
everything else: decidable form of "this entry is a file containing the
search bytes". -/
def fileNodeContains (search : List Nat) (e : FSNode) : Bool :=
  match e.node with
  | .file c => containsSub search c
  | _ => false

/-- Decidable form of "processing this entry rewrites it on disk". -/
def fileNodeRewritten (search repl : List Nat) (e : FSNode) : Bool :=
  match e.node with
  | .file c => fileRewritten search repl c
  | _ => false

/-- A Python scalar carried in an option descriptor `default` entry: either
a string, or any other value together with its `str()` rendering. -/
inductive PyVal where
  | pstr (s : String)
  | pother (rendered : String)
deriving DecidableEq

/-- Python `str(default_value)`. -/
def pyStr : PyVal → String
  | .pstr s => s
  | .pother r => r

/-- ASCII whitespace stripped by Python `str.strip()`. -/
def pyIsSpace (c : Char) : Bool :=
  c == ' ' || c == '\t' || c == '\n' || c == '\r' || c.toNat == 11 || c.toNat == 12

/-- Python `s.strip()`. -/
def pyStrip (s : String) : String :=
  String.mk (((s.data.dropWhile pyIsSpace).reverse.dropWhile pyIsSpace).reverse)

/-- One option descriptor as read from the `options` object of
`devcontainer-template.json`: whether the descriptor is itself a JSON
object, and its `default` entry when present. A non-object descriptor
resolves to no default (`option_spec.get("default")` is only consulted when
`isinstance(option_spec, dict)`). -/
structure OptionSpec where
  isDict : Bool
  default : Option PyVal
deriving DecidableEq

/-- The `default_value` computed by `replace_template_placeholders`. -/
def resolvedDefault (spec : OptionSpec) : Option PyVal :=
  if spec.isDict then spec.default else none

/-- Python `isinstance(v, str) and v.strip() == ""`. -/
def pyBlank : PyVal → Bool
  | .pstr s => pyStrip s == ""
  | .pother _ => false

/-- A descriptor passes the default-value validation: a default is present
and, when a string, is not blank after stripping. -/
def goodSpec (spec : OptionSpec) : Bool :=
  match resolvedDefault spec with
  | none => false
  | some dv => !pyBlank dv

/-- The literal placeholder token built for an option key. -/
def placeholderFor (key : String) : String :=
  "$\x7btemplateOption:" ++ key ++ "\x7d"

/-- The fatal `ActionBuildError` cases raised by the script, each carrying
the data its message names. -/
inductive BuildError where
  | templateJsonNotFound (path : String)
  | missingDefault (key : String)
  | containerFailedToStart
  | testsFailed (code : Nat)
  | commandNotFound (cmd : String)
deriving DecidableEq

/-- One placeholder substitution across the whole workspace. -/
def applySubst (fs : List FSNode) (key : String) (dv : PyVal) : List FSNode :=
  replace_in_files (strBytes (placeholderFor key)) (strBytes (pyStr dv)) fs

/-- `replace_template_placeholders(workspace_dir, options)`: iterate the
declared options in order; a missing or blank default raises an error naming
the key; otherwise the placeholder token is substituted across the
workspace. Returns the workspace files together with the raised error, if
any; file mutations performed before a raise are kept. -/
def replace_template_placeholders :
    List FSNode → List (String × OptionSpec) → List FSNode × Option BuildError
  | fs, [] => (fs, none)
  | fs, (key, spec) :: rest =>
    match resolvedDefault spec with
    | none => (fs, some (.missingDefault key))
    | some dv =>
      if pyBlank dv then (fs, some (.missingDefault key))
      else replace_template_placeholders (applySubst fs key dv) rest

/-- The effect on the files of processing one option entry that passes
validation (used to describe the state the files are left in when a later
entry fails). -/
def substStep (fs : List FSNode) (p : String × OptionSpec) : List FSNode :=
  match resolvedDefault p.2 with
  | none => fs
  | some dv => if pyBlank dv then fs else applySubst fs p.1 dv

/-- The files after processing a list of validated option entries. -/
def substAll (fs : List FSNode) (opts : List (String × OptionSpec)) : List FSNode :=
  opts.foldl substStep fs

/-- The parsed `options` field of `devcontainer-template.json`: absent (or
JSON null), a non-object value with its Python truthiness, or an object. -/
inductive OptionsField where
  | absent
  | nonDict (truthy : Bool)
  | dict (entries : List (String × OptionSpec))
deriving DecidableEq

/-- Python truthiness test `not options`. -/
def optionsFalsy : OptionsField → Bool
  | .absent => true
  | .nonDict t => !t
  | .dict es => es.isEmpty

/-- A template workspace: its directory name, whether the descriptor file
`devcontainer-template.json` exists, the parsed `options` field of that
descriptor, and the files under the workspace. -/
structure Workspace where
  name : String
  hasTemplateJson : Bool
  optionsField : OptionsField
  files : List FSNode
deriving DecidableEq

/-- The descriptor path named by the `Template JSON not found` error. -/
def templateJsonPath (ws : Workspace) : String :=
  ws.name ++ "/devcontainer-template.json"

/-- The option entries substitution iterates over (empty when the `options`
field is not an object). -/
def wsOptionList (ws : Workspace) : List (String × OptionSpec) :=
  match ws.optionsField with
  | .dict es => es
  | _ => []

/-- `configure_template_options(workspace_dir)`: a missing descriptor is a
fatal error naming its path; a falsy or non-object `options` value is a
no-op; otherwise every declared option is substituted. Returns the files
together with the raised error, if any. -/
def configure_template_options (ws : Workspace) : List FSNode × Option BuildError :=
  if ws.hasTemplateJson = false then
    (ws.files, some (.templateJsonNotFound (templateJsonPath ws)))
  else if optionsFalsy ws.optionsField then (ws.files, none)
  else
    match ws.optionsField with
    | .dict es => replace_template_placeholders ws.files es
    | _ => (ws.files, none)

/-- Outcome of one external process invocation: whether the executable was
found, its exit code, and the captured standard output/error text. -/
structure ProcResult where
  found : Bool
  exitCode : Nat
  stdout : String
  stderr : String
deriving DecidableEq

/-- The `run` helper: never raises. A missing executable or a non-zero exit
code is logged and reported as the empty string; on a zero exit the stripped
stdout (or, when stdout is empty, the stripped stderr) is returned. -/
def run (r : ProcResult) : String :=
  if r.found = false then ""
  else if r.exitCode ≠ 0 then ""
  else if r.stdout ≠ "" then pyStrip r.stdout
  else if r.stderr ≠ "" then pyStrip r.stderr
  else ""

/-- `devcontainer_up`: raises `Container failed to start` exactly when the
text captured from the `devcontainer up` invocation is empty. -/
def devcontainer_up (r : ProcResult) : Option BuildError :=
  if run r = "" then some .containerFailedToStart else none

/-- Outcome of the in-container `devcontainer exec` invocation of the test
action. -/
inductive ExecResult where
  | ok (stdout stderr : String)
  | failed (code : Nat) (stdout stderr : String)
  | notFound
deriving DecidableEq

/-- Observable effects of the test action. -/
inductive Eff where
  | execTest
  | printOutput (s : String)
  | dockerPs
  | dockerRm (ids : List String)
  | rmWorkspace
deriving DecidableEq

/-- Worker for `pySplitLines`, accumulating the current line reversed. -/
def splitLinesAux : List Char → List Char → List String
  | [], cur => if cur.isEmpty then [] else [String.mk cur.reverse]
  | c :: rest, cur =>
    if c == '\n' then String.mk cur.reverse :: splitLinesAux rest []
    else splitLinesAux rest (c :: cur)

/-- Python `str.splitlines()` for newline-separated text (the only case the
script feeds it: stripped `docker ps -q` output). -/
def pySplitLines (s : String) : List String := splitLinesAux s.data []

/-- `cleanup_docker_containers(template_id)`, as the effects it performs
given the text the `docker ps` discovery produced: no matches is logged and
returns without raising; otherwise the listed containers are force-removed
(the removal status is only logged). -/
def cleanup_docker_containers (psOut : String) : List Eff :=
  if psOut = "" then [.dockerPs]
  else [.dockerPs, .dockerRm (pySplitLines psOut)]

/-- `exec_test_action(workspace_dir, template_id)`: run the in-container
test command; on success print its stripped output (when non-empty), then
clean up labeled containers and remove the workspace; a failed command or a
missing executable raises immediately. Returns the effects performed and the
raised error, if any. -/
def exec_test_action (r : ExecResult) (psOut : String) : List Eff × Option BuildError :=
  match r with
  | .ok stdout _ =>
    ([.execTest]
       ++ (if (if stdout ≠ "" then pyStrip stdout else "") ≠ ""
           then [.printOutput (pyStrip stdout)] else [])
       ++ cleanup_docker_containers psOut ++ [.rmWorkspace], none)
  | .failed code _ _ => ([.execTest], some (.testsFailed code))
  | .notFound => ([.execTest], some (.commandNotFound "devcontainer"))

/-- Errors of the copy helpers (`shutil.copytree` raises when the source is
missing). -/
inductive CopyError where
  | sourceNotFound
deriving DecidableEq

/-- All entries at or below a path. -/
def subtreeAt (fs : List FSNode) (p : List String) : List FSNode :=
  fs.filter (fun e => p.isPrefixOf e.path)

/-- An entry moved from below `src` to the corresponding path below `dst`,
keeping its node kind (so symbolic links stay links). -/
def rerootOne (src dst : List String) (e : FSNode) : FSNode :=
  ⟨dst ++ e.path.drop src.length, e.node⟩

/-- `copy_tree(src, dst)`: the destination tree is removed when it exists,
then `shutil.copytree(src, dst, symlinks=True)` duplicates the source tree
(all node kinds, symbolic links preserved as links) at the destination;
`copytree` raises when the source does not exist. -/
def copy_tree (fs : List FSNode) (src dst : List String) :
    Except CopyError (List FSNode) :=
  let afterRm := fs.filter (fun e => !(dst.isPrefixOf e.path))
  if afterRm.any (fun e => e.path == src) then
    .ok (afterRm ++ (subtreeAt afterRm src).map (rerootOne src dst))
  else
    .error .sourceNotFound

/-- Write a batch of entries: same-path entries are replaced, everything
else is kept. -/
def overwriteWith (fs new : List FSNode) : List FSNode :=
  fs.filter (fun e => !(new.any (fun n => n.path == e.path))) ++ new

/-- The destination path a direct source child is copied to. -/
def childTarget (src dst : List String) (e : FSNode) : List String :=
  dst ++ e.path.drop src.length

/-- One `copy_contents` loop iteration for direct child `e` of the source:
a directory is merged into the destination
(`shutil.copytree(..., dirs_exist_ok=True, symlinks=True)`), a regular file
is copied over (`shutil.copy2`), anything else is silently skipped.
Symbolic-link children are modelled as skipped (resolving their targets is
out of scope of the embedding; this is exact for dangling links). -/
def applyChild (src dst : List String) (acc : List FSNode) (e : FSNode) :
    List FSNode :=
  match e.node with
  | .dir => overwriteWith acc ((subtreeAt acc e.path).map (rerootOne src dst))
  | .file c => overwriteWith acc [⟨childTarget src dst e, .file c⟩]
  | .symlink _ => acc
  | .special => acc

/-- `dest_dir.mkdir(parents=True, exist_ok=True)`: create the destination
directory and any missing parents. -/
def ensureDirs (fs : List FSNode) (dst : List String) : List FSNode :=
  fs ++ (dst.inits.filter
      (fun p => !p.isEmpty && !(fs.any (fun e => e.path == p)))).map
    (fun p => (⟨p, .dir⟩ : FSNode))

/-- The direct children of a directory (`src_dir.iterdir()`). -/
def directChildren (fs : List FSNode) (src : List String) : List FSNode :=
  fs.filter (fun e => src.isPrefixOf e.path && e.path.length == src.length + 1)

/-- `copy_contents(src_dir, dest_dir)`: create the destination (with
parents), then process each direct child of the source in turn. -/
def copy_contents (fs : List FSNode) (src dst : List String) : List FSNode :=
  (directChildren (ensureDirs fs dst) src).foldl (applyChild src dst)
    (ensureDirs fs dst)

/-- Paths of a list of entries. -/
def pathsOf (fs : List FSNode) : List (List String) := fs.map (·.path)

/-- Boolean test "the entry lies at or below `src`". -/
def underSrcB (src : List String) (e : FSNode) : Bool := src.isPrefixOf e.path

/-- Concrete workspace for the idempotence counterexample: one file whose
content is the token of option `b`, whose default value is the token of
option `a`. -/
def ws6 : Workspace :=
  ⟨"w", true,
    .dict [("a", ⟨true, some (.pstr "x")⟩),
           ("b", ⟨true, some (.pstr (placeholderFor "a"))⟩)],
    [⟨["f"], .file (strBytes (placeholderFor "b"))⟩]⟩

/-- The files `ws6` is left with after a first successful run of
`configure_template_options`. -/
def fs6 : List FSNode := [⟨["f"], .file (strBytes (placeholderFor "a"))⟩]

/-- Concrete workspace for the idempotence witness: a single well-formed
option whose token does not occur in the files. -/
def wsW : Workspace :=
  ⟨"w", true, .dict [("a", ⟨true, some (.pstr "x")⟩)], [⟨["f"], .file [1]⟩]⟩

/-! ### Basic prefix facts -/

lemma prefComparable {α : Type} {l₁ l₂ l₃ : List α} (h₁ : l₁ <+: l₃)
    (h₂ : l₂ <+: l₃) : l₁ <+: l₂ ∨ l₂ <+: l₁ :=
  List.prefix_or_prefix_of_prefix h₁ h₂

lemma prefixOfIff {α : Type} [BEq α] [LawfulBEq α] {l₁ l₂ : List α} :
    l₁.isPrefixOf l₂ = true ↔ l₁ <+: l₂ :=
  List.isPrefixOf_iff_prefix

lemma pref_append_drop {α : Type} {l p : List α} (h : l <+: p) :
    l ++ p.drop l.length = p := by
  obtain ⟨t, rfl⟩ := h
  rw [List.drop_left]

/-! ### The substitution engine -/

lemma replaceGo_no_occ (sb rb : List Nat) :
    ∀ (fuel : Nat) (content : List Nat), content.length ≤ fuel →
      (∀ i, ¬ sb.isPrefixOf (content.drop i) = true) →
      replaceGo sb rb fuel content = content := by
  intro fuel
  induction fuel with
  | zero =>
    intro content hf _
    cases content with
    | nil => rfl
    | cons c r => simp at hf
  | succ f ih =>
    intro content hf h
    cases content with
    | nil => rfl
    | cons c r =>
      have h0 : ¬ sb.isPrefixOf (c :: r) = true := by
        have := h 0
        simpa using this
      rw [replaceGo, if_neg h0]
      have hr : replaceGo sb rb f r = r := by
        apply ih
        · simpa using Nat.le_of_succ_le_succ hf
        · intro i
          have := h (i + 1)
          simpa using this
      rw [hr]

lemma replaceGo_unique (sb rb suf : List Nat) (hsb : sb ≠ []) :
    ∀ (pre : List Nat) (fuel : Nat), (pre ++ sb ++ suf).length ≤ fuel →
      (∀ i, sb.isPrefixOf ((pre ++ sb ++ suf).drop i) = true → i = pre.length) →
      replaceGo sb rb fuel (pre ++ sb ++ suf) = pre ++ rb ++ suf := by
  intro pre
  induction pre with
  | nil =>
    intro fuel hf h
    cases sb with
    | nil => exact absurd rfl hsb
    | cons s st =>
      cases fuel with
      | zero =>
        exfalso
        simp at hf
      | succ f =>
        simp only [List.nil_append, List.cons_append, List.length_nil] at hf h ⊢
        have hpref : (s :: st).isPrefixOf (s :: (st ++ suf)) = true := by
          rw [prefixOfIff]
          exact ⟨suf, by simp⟩
        rw [replaceGo, if_pos hpref]
        have hdrop : (s :: (st ++ suf)).drop (s :: st).length = suf := by
          simp
        rw [hdrop]
        have hsuf : replaceGo (s :: st) rb f suf = suf := by
          apply replaceGo_no_occ
          · simp at hf
            omega
          · intro i hi
            have hdrop2 : (s :: (st ++ suf)).drop ((s :: st).length + i) = suf.drop i := by
              have heq : s :: (st ++ suf) = (s :: st) ++ suf := by simp
              rw [heq, List.drop_append]
            have hcon := h ((s :: st).length + i) (by rw [hdrop2]; exact hi)
            simp only [List.length_cons] at hcon
            omega
        rw [hsuf]
  | cons p pt ih =>
    intro fuel hf h
    cases fuel with
    | zero =>
      exfalso
      simp at hf
    | succ f =>
      simp only [List.cons_append] at hf h ⊢
      have hpref : ¬ sb.isPrefixOf (p :: (pt ++ sb ++ suf)) = true := by
        intro hcon
        have := h 0 (by simpa using hcon)
        simp at this
      rw [replaceGo, if_neg hpref]
      have := ih f (by simp at hf ⊢; omega) (by
        intro i hi
        have := h (i + 1) (by simpa using hi)
        simpa using this)
      rw [this]

lemma occ_unique_of_occCount_one {sb pre suf : List Nat} (hsb : sb ≠ [])
    (h1 : occCount sb (pre ++ sb ++ suf) = 1) :
    ∀ i, sb.isPrefixOf ((pre ++ sb ++ suf).drop i) = true → i = pre.length := by
  intro i hi
  have hocc : sb.isPrefixOf ((pre ++ sb ++ suf).drop pre.length) = true := by
    have hdp : (pre ++ sb ++ suf).drop pre.length = sb ++ suf := by
      rw [List.append_assoc, List.drop_left]
    rw [hdp, prefixOfIff]
    exact ⟨suf, rfl⟩
  have hilen : i ≤ (pre ++ sb ++ suf).length := by
    by_contra h'
    push_neg at h'
    have hz : (pre ++ sb ++ suf).drop i = [] :=
      List.drop_eq_nil_of_le (Nat.le_of_lt h')
    rw [hz] at hi
    cases sb with
    | nil => exact hsb rfl
    | cons a t => simp at hi
  have hplen : pre.length ≤ (pre ++ sb ++ suf).length := by
    simp
  have hmi : i ∈ (List.range ((pre ++ sb ++ suf).length + 1)).filter
      (fun j => sb.isPrefixOf ((pre ++ sb ++ suf).drop j)) :=
    List.mem_filter.mpr ⟨List.mem_range.mpr (by omega), hi⟩
  have hmp : pre.length ∈ (List.range ((pre ++ sb ++ suf).length + 1)).filter
      (fun j => sb.isPrefixOf ((pre ++ sb ++ suf).drop j)) :=
    List.mem_filter.mpr ⟨List.mem_range.mpr (by omega), hocc⟩
  obtain ⟨x, hx⟩ := List.length_eq_one.mp h1
  rw [hx] at hmi hmp
  simp at hmi hmp
  omega

lemma containsSub_of_occ {sb content : List Nat} (i : Nat)
    (hi : i ≤ content.length) (h : sb.isPrefixOf (content.drop i) = true) :
    containsSub sb content = true := by
  unfold containsSub
  rw [List.any_eq_true]
  exact ⟨i, List.mem_range.mpr (by omega), h⟩

lemma fileAfterReplace_unique (sb rb pre suf : List Nat) (hsb : sb ≠ [])
    (h1 : occCount sb (pre ++ sb ++ suf) = 1) :
    fileAfterReplace sb rb (pre ++ sb ++ suf) = pre ++ rb ++ suf := by
  have hu := occ_unique_of_occCount_one hsb h1
  have hc : containsSub sb (pre ++ sb ++ suf) = true := by
    apply containsSub_of_occ pre.length (by simp)
    have hdp : (pre ++ sb ++ suf).drop pre.length = sb ++ suf := by
      rw [List.append_assoc, List.drop_left]
    rw [hdp, prefixOfIff]
    exact ⟨suf, rfl⟩
  unfold fileAfterReplace
  rw [if_pos hc]
  unfold pyBytesReplace
  rw [if_neg (by simp [hsb])]
  exact replaceGo_unique sb rb suf hsb pre _ (Nat.le_refl _) hu

lemma fileAfterReplace_not_contains (sb rb c : List Nat)
    (h : containsSub sb c = false) : fileAfterReplace sb rb c = c := by
  simp [fileAfterReplace, h]

lemma fileRewritten_not_contains (sb rb c : List Nat)
    (h : containsSub sb c = false) : fileRewritten sb rb c = false := by
  simp [fileRewritten, h]

lemma replace_in_files_id (sb rb : List Nat) (fs : List FSNode)
    (h : ∀ e ∈ fs, fileNodeContains sb e = false) :
    replace_in_files sb rb fs = fs := by
  induction fs with
  | nil => rfl
  | cons e rest ih =>
    have he := h e (List.mem_cons_self _ _)
    have hrest := ih (fun x hx => h x (List.mem_cons_of_mem _ hx))
    obtain ⟨p, nd⟩ := e
    unfold replace_in_files at hrest ⊢
    simp only [List.map_cons, hrest]
    cases nd with
    | file c =>
      have hc : containsSub sb c = false := by simpa [fileNodeContains] using he
      simp [processNode, fileAfterReplace_not_contains sb rb c hc]
    | dir => simp [processNode]
    | symlink t => simp [processNode]
    | special => simp [processNode]

/-! ### Claims C2 and C4: the substitution engine over a file tree -/

/-- C2 (counterexample): a file whose bytes hold exactly one occurrence of
the search term can still contain the search term after
`replace_in_files` — here the replacement `0x61 0x61` for search `0x61`
reintroduces it — refuting "contains no occurrence of the search token for
every choice of search term and replacement". -/
theorem C2_counterexample :
    occCount [97] [97] = 1 ∧
    fileAfterReplace [97] [97, 97] [97] = [97, 97] ∧
    containsSub [97] (fileAfterReplace [97] [97, 97] [97]) = true := by
  decide

/-- C2 (amended): for a file whose byte content holds exactly one occurrence
of the (non-empty) encoded search term, `replace_in_files` rewrites that
file to the original content with the replacement at the position of the
occurrence; the search token may still occur afterwards when the
replacement (or its juncture with the surrounding bytes) re-forms it. -/
theorem C2_single_occurrence (sb rb : List Nat) (fs : List FSNode)
    (p : List String) (pre suf : List Nat) (hsb : sb ≠ [])
    (he : (⟨p, .file (pre ++ sb ++ suf)⟩ : FSNode) ∈ fs)
    (h1 : occCount sb (pre ++ sb ++ suf) = 1) :
    (⟨p, .file (pre ++ rb ++ suf)⟩ : FSNode) ∈ replace_in_files sb rb fs ∧
    fileAfterReplace sb rb (pre ++ sb ++ suf) = pre ++ rb ++ suf := by
  have hf := fileAfterReplace_unique sb rb pre suf hsb h1
  constructor
  · unfold replace_in_files
    exact List.mem_map.mpr
      ⟨⟨p, .file (pre ++ sb ++ suf)⟩, he, by simp only [processNode]; rw [hf]⟩
  · exact hf

/-- C2 (witness): the amended theorem at a concrete tree. -/
theorem C2_single_occurrence_witness :
    (⟨["f"], .file [1, 9, 3]⟩ : FSNode) ∈
      replace_in_files [2] [9] [⟨["f"], .file [1, 2, 3]⟩] ∧
    fileAfterReplace [2] [9] [1, 2, 3] = [1, 9, 3] :=
  C2_single_occurrence [2] [9] [⟨["f"], .file [1, 2, 3]⟩] ["f"] [1] [3]
    (by decide) (by decide) (by decide)

/-- C4: over a tree in which no regular file contains the search bytes,
`replace_in_files` leaves every entry unchanged and rewrites no file (so
modification metadata is preserved); empty files are among those left
untouched. -/
theorem C4_no_occurrence_frame (sb rb : List Nat) (fs : List FSNode)
    (h : ∀ e ∈ fs, fileNodeContains sb e = false) :
    replace_in_files sb rb fs = fs ∧
    (∀ e ∈ fs, fileNodeRewritten sb rb e = false) := by
  refine ⟨replace_in_files_id sb rb fs h, ?_⟩
  intro e he
  obtain ⟨p, nd⟩ := e
  cases nd with
  | file c =>
    have hc : containsSub sb c = false := by
      simpa [fileNodeContains] using h _ he
    simpa [fileNodeRewritten] using fileRewritten_not_contains sb rb c hc
  | dir => simp [fileNodeRewritten]
  | symlink t => simp [fileNodeRewritten]
  | special => simp [fileNodeRewritten]

/-- C4 (witness): a concrete tree (with an empty file, a non-matching file
and a directory) is left untouched. -/
theorem C4_no_occurrence_frame_witness :
    replace_in_files [9] [7]
        [⟨["a"], .file []⟩, ⟨["b"], .file [1, 2]⟩, ⟨["d"], .dir⟩] =
      [⟨["a"], .file []⟩, ⟨["b"], .file [1, 2]⟩, ⟨["d"], .dir⟩] ∧
    (∀ e ∈ [(⟨["a"], .file []⟩ : FSNode), ⟨["b"], .file [1, 2]⟩, ⟨["d"], .dir⟩],
      fileNodeRewritten [9] [7] e = false) :=
  C4_no_occurrence_frame [9] [7]
    [⟨["a"], .file []⟩, ⟨["b"], .file [1, 2]⟩, ⟨["d"], .dir⟩] (by decide)

/-! ### Claims C3, C9, C6: the template option resolver -/

lemma rtp_snd_none_iff (fs : List FSNode) (opts : List (String × OptionSpec)) :
    (replace_template_placeholders fs opts).2 = none ↔
      ∀ q ∈ opts, goodSpec q.2 = true := by
  induction opts generalizing fs with
  | nil => simp [replace_template_placeholders]
  | cons q rest ih =>
    obtain ⟨k, spec⟩ := q
    cases hr : resolvedDefault spec with
    | none =>
      simp [replace_template_placeholders, hr, goodSpec]
    | some dv =>
      by_cases hb : pyBlank dv = true
      · simp [replace_template_placeholders, hr, hb, goodSpec]
      · simp only [Bool.not_eq_true] at hb
        simp [replace_template_placeholders, hr, hb, goodSpec, ih]

lemma rtp_noop (fs : List FSNode) (opts : List (String × OptionSpec))
    (hg : ∀ q ∈ opts, goodSpec q.2 = true)
    (hn : ∀ q ∈ opts, ∀ e ∈ fs,
      fileNodeContains (strBytes (placeholderFor q.1)) e = false) :
    replace_template_placeholders fs opts = (fs, none) := by
  induction opts with
  | nil => rfl
  | cons q rest ih =>
    obtain ⟨k, spec⟩ := q
    have hgh := hg _ (List.mem_cons_self _ _)
    cases hr : resolvedDefault spec with
    | none => simp [goodSpec, hr] at hgh
    | some dv =>
      have hb : pyBlank dv = false := by
        simpa [goodSpec, hr] using hgh
      have hsub : applySubst fs k dv = fs := by
        apply replace_in_files_id
        intro e he
        exact hn _ (List.mem_cons_self _ _) e he
      rw [replace_template_placeholders, hr]
      simp only [hb, Bool.false_eq_true, if_false, hsub]
      exact ih (fun q hq => hg q (List.mem_cons_of_mem _ hq))
        (fun q hq => hn q (List.mem_cons_of_mem _ hq))

/-- C3: when every option before `key` passes validation and `key`'s default
is absent or blank, the resolver stops with a fatal error naming `key`; the
files returned are exactly those after the substitutions of the earlier
keys (kept, no rollback), with no substitution for `key` or any later key. -/
theorem C3_missing_default_fail_fast (fs : List FSNode)
    (pre post : List (String × OptionSpec)) (key : String) (spec : OptionSpec)
    (hgood : ∀ q ∈ pre, goodSpec q.2 = true)
    (hbad : goodSpec spec = false) :
    replace_template_placeholders fs (pre ++ (key, spec) :: post) =
      (substAll fs pre, some (.missingDefault key)) := by
  induction pre generalizing fs with
  | nil =>
    simp only [List.nil_append, substAll, List.foldl_nil]
    cases hr : resolvedDefault spec with
    | none => rw [replace_template_placeholders, hr]
    | some dv =>
      have hb : pyBlank dv = true := by
        by_contra hb'
        simp only [Bool.not_eq_true] at hb'
        simp [goodSpec, hr, hb'] at hbad
      rw [replace_template_placeholders, hr]
      simp [hb]
  | cons q pt ih =>
    obtain ⟨k₀, s₀⟩ := q
    have hgh := hgood _ (List.mem_cons_self _ _)
    cases hr : resolvedDefault s₀ with
    | none => simp [goodSpec, hr] at hgh
    | some dv =>
      have hb : pyBlank dv = false := by
        simpa [goodSpec, hr] using hgh
      have hstep : substStep fs (k₀, s₀) = applySubst fs k₀ dv := by
        simp [substStep, hr, hb]
      simp only [List.cons_append]
      rw [replace_template_placeholders, hr]
      simp only [hb, Bool.false_eq_true, if_false]
      rw [ih (applySubst fs k₀ dv) (fun q hq => hgood q (List.mem_cons_of_mem _ hq))]
      simp [substAll, hstep]

/-- C3 (witness): the theorem at a concrete descriptor where key `b` has a
whitespace-only default, after a valid key `a` and before a valid key `c`. -/
theorem C3_missing_default_fail_fast_witness :
    replace_template_placeholders
        [⟨["f"], .file (strBytes (placeholderFor "a"))⟩]
        ([("a", ⟨true, some (.pstr "x")⟩)] ++
          ("b", ⟨true, some (.pstr " ")⟩) ::
          [("c", ⟨true, some (.pstr "y")⟩)]) =
      (substAll [⟨["f"], .file (strBytes (placeholderFor "a"))⟩]
          [("a", ⟨true, some (.pstr "x")⟩)],
        some (.missingDefault "b")) :=
  C3_missing_default_fail_fast
    [⟨["f"], .file (strBytes (placeholderFor "a"))⟩]
    [("a", ⟨true, some (.pstr "x")⟩)] [("c", ⟨true, some (.pstr "y")⟩)]
    "b" ⟨true, some (.pstr " ")⟩ (by decide) (by decide)

/-- C9: a missing `devcontainer-template.json` is a fatal error naming the
descriptor path; when the descriptor exists but declares no `options`
section, or an empty one, the function returns the files unmodified with no
error. -/
theorem C9_descriptor_handling (ws : Workspace) :
    (ws.hasTemplateJson = false →
      configure_template_options ws =
        (ws.files, some (.templateJsonNotFound (templateJsonPath ws)))) ∧
    (ws.hasTemplateJson = true →
      (ws.optionsField = .absent ∨ ws.optionsField = .dict []) →
      configure_template_options ws = (ws.files, none)) := by
  constructor
  · intro h
    simp [configure_template_options, h]
  · intro h h'
    rcases h' with h' | h' <;>
      simp [configure_template_options, h, h', optionsFalsy]

/-- C9 (witness): both conclusions at concrete workspaces. -/
theorem C9_descriptor_handling_witness :
    configure_template_options ⟨"w", false, .absent, []⟩ =
      ([], some (.templateJsonNotFound
        (templateJsonPath ⟨"w", false, .absent, []⟩))) ∧
    configure_template_options ⟨"w", true, .dict [], []⟩ = ([], none) :=
  ⟨(C9_descriptor_handling ⟨"w", false, .absent, []⟩).1 rfl,
    (C9_descriptor_handling ⟨"w", true, .dict [], []⟩).2 rfl (Or.inr rfl)⟩

/-- C6 (counterexample): `configure_template_options` is not idempotent: on
`ws6` the default of option `b` is the token of option `a`, so the first run
succeeds leaving `a`'s token in the file and the second run substitutes it
again, changing the file — refuting "running a second time leaves every
file's byte content unchanged". -/
theorem C6_counterexample :
    configure_template_options ws6 = (fs6, none) ∧
    configure_template_options { ws6 with files := fs6 } ≠ (fs6, none) := by
  decide

/-- C6 (amended): after a successful run, a second run on the resulting
files (with the descriptor's declared options unchanged) always succeeds;
and provided no declared option token occurs in any file after the first
run, the second run returns every file's byte content unchanged (so no file
is rewritten). Without that proviso a substituted default can reintroduce a
token and the second run modifies files. -/
theorem C6_second_run (ws : Workspace) (fs₁ : List FSNode)
    (h : configure_template_options ws = (fs₁, none)) :
    (configure_template_options { ws with files := fs₁ }).2 = none ∧
    ((∀ q ∈ wsOptionList ws, ∀ e ∈ fs₁,
        fileNodeContains (strBytes (placeholderFor q.1)) e = false) →
      configure_template_options { ws with files := fs₁ } = (fs₁, none)) := by
  obtain ⟨nm, hTj, oF, files⟩ := ws
  cases hTj with
  | false =>
    exfalso
    simp [configure_template_options] at h
  | true =>
    cases oF with
    | absent =>
      have hfs : files = fs₁ := by
        simp [configure_template_options, optionsFalsy] at h
        exact h
      subst hfs
      exact ⟨by simp [configure_template_options, optionsFalsy],
        fun _ => by simp [configure_template_options, optionsFalsy]⟩
    | nonDict t =>
      have hfs : files = fs₁ := by
        cases t <;> simp [configure_template_options, optionsFalsy] at h <;>
          exact h
      subst hfs
      cases t <;>
        exact ⟨by simp [configure_template_options, optionsFalsy],
          fun _ => by simp [configure_template_options, optionsFalsy]⟩
    | dict es =>
      by_cases hne : es.isEmpty = true
      · have hfs : files = fs₁ := by
          simp [configure_template_options, optionsFalsy, hne] at h
          exact h
        subst hfs
        exact ⟨by simp [configure_template_options, optionsFalsy, hne],
          fun _ => by simp [configure_template_options, optionsFalsy, hne]⟩
      · have hne' : es.isEmpty = false := by
          simpa using hne
        have hrtp : replace_template_placeholders files es = (fs₁, none) := by
          simpa [configure_template_options, optionsFalsy, hne'] using h
        have hg : ∀ q ∈ es, goodSpec q.2 = true :=
          (rtp_snd_none_iff files es).mp (by rw [hrtp])
        constructor
        · have hgoal : configure_template_options ⟨nm, true, .dict es, fs₁⟩ =
              replace_template_placeholders fs₁ es := by
            simp [configure_template_options, optionsFalsy, hne']
          rw [hgoal]
          exact (rtp_snd_none_iff fs₁ es).mpr hg
        · intro hn
          have hgoal : configure_template_options ⟨nm, true, .dict es, fs₁⟩ =
              replace_template_placeholders fs₁ es := by
            simp [configure_template_options, optionsFalsy, hne']
          rw [hgoal]
          exact rtp_noop fs₁ es hg (by simpa [wsOptionList] using hn)

/-- C6 (witness): the amended theorem on `wsW`, whose single option token
does not occur in the file content, so the second run returns the files
unchanged. -/
theorem C6_second_run_witness :
    configure_template_options { wsW with files := [⟨["f"], .file [1]⟩] } =
      ([⟨["f"], .file [1]⟩], none) :=
  (C6_second_run wsW [⟨["f"], .file [1]⟩] (by decide)).2 (by decide)

/-! ### Claims C5, C10, C1: subprocess handling -/

/-- C5: `devcontainer_up` raises `Container failed to start` exactly when
the text captured by `run` from the `devcontainer up` invocation is empty;
in particular a process that exits with status 0 but produces no output is
treated as a failure, so the check is on truthiness of captured text, not on
the reported exit status. -/
theorem C5_empty_output_check (r : ProcResult) :
    (devcontainer_up r = some .containerFailedToStart ↔ run r = "") ∧
    devcontainer_up ⟨true, 0, "", ""⟩ = some .containerFailedToStart := by
  constructor
  · unfold devcontainer_up
    by_cases h : run r = "" <;> simp [h]
  · decide

/-- C5 (witness): the theorem applied at a successful, silent invocation. -/
theorem C5_empty_output_check_witness :
    devcontainer_up ⟨true, 0, "", ""⟩ = some .containerFailedToStart :=
  (C5_empty_output_check ⟨true, 0, "", ""⟩).2

/-- C10: for any invocation whose executable is missing or whose exit status
is non-zero, `run` returns the empty string — the same value it returns for
a successful command that produced no output — so callers cannot
distinguish the two at `run`'s interface (and `run` is total: it never
raises). -/
theorem C10_run_swallows_failures (r : ProcResult)
    (h : r.found = false ∨ r.exitCode ≠ 0) :
    run r = "" ∧ run r = run ⟨true, 0, "", ""⟩ := by
  have h1 : run r = "" := by
    rcases h with h | h
    · simp [run, h]
    · cases hf : r.found with
      | false => simp [run, hf]
      | true => simp [run, hf, h]
  have h2 : run ⟨true, 0, "", ""⟩ = "" := by decide
  exact ⟨h1, h1.trans h2.symm⟩

/-- C10 (witness): a missing executable and a failing exit code, both
indistinguishable from silent success. -/
theorem C10_run_swallows_failures_witness :
    (run ⟨false, 0, "x", "y"⟩ = "" ∧
      run ⟨false, 0, "x", "y"⟩ = run ⟨true, 0, "", ""⟩) ∧
    (run ⟨true, 3, "x", "y"⟩ = "" ∧
      run ⟨true, 3, "x", "y"⟩ = run ⟨true, 0, "", ""⟩) :=
  ⟨C10_run_swallows_failures ⟨false, 0, "x", "y"⟩ (Or.inl rfl),
    C10_run_swallows_failures ⟨true, 3, "x", "y"⟩ (Or.inr (by decide))⟩

/-- C1 (counterexample): when the in-container test invocation fails, the
test action raises at once: neither the container discovery (`docker ps`)
nor the workspace removal is attempted — refuting "cleanup and workspace
deletion are both attempted whether the test script succeeds or fails". -/
theorem C1_counterexample :
    Eff.rmWorkspace ∉ (exec_test_action (.failed 1 "" "") "").1 ∧
    Eff.dockerPs ∉ (exec_test_action (.failed 1 "" "") "").1 ∧
    (exec_test_action (.failed 1 "" "") "").2 = some (.testsFailed 1) := by
  decide

/-- C1 (amended): the test action attempts container cleanup (discovery,
and forced removal when containers are found) and workspace deletion
exactly when the in-container invocation succeeds, before returning without
error; when the invocation fails or the executable is missing it raises
immediately, performing neither cleanup step. -/
theorem C1_cleanup_only_on_success (r : ExecResult) (psOut : String) :
    (∀ so se, r = .ok so se →
      (exec_test_action r psOut).2 = none ∧
      Eff.dockerPs ∈ (exec_test_action r psOut).1 ∧
      Eff.rmWorkspace ∈ (exec_test_action r psOut).1 ∧
      (psOut ≠ "" →
        Eff.dockerRm (pySplitLines psOut) ∈ (exec_test_action r psOut).1)) ∧
    (∀ code so se, r = .failed code so se →
      exec_test_action r psOut = ([.execTest], some (.testsFailed code))) ∧
    (r = .notFound →
      exec_test_action r psOut =
        ([.execTest], some (.commandNotFound "devcontainer"))) := by
  refine ⟨?_, ?_, ?_⟩
  · rintro so se rfl
    refine ⟨rfl, ?_, ?_, ?_⟩
    · by_cases hp : psOut = "" <;>
        simp [exec_test_action, cleanup_docker_containers, hp]
    · by_cases hp : psOut = "" <;>
        simp [exec_test_action, cleanup_docker_containers, hp]
    · intro hp
      simp [exec_test_action, cleanup_docker_containers, hp]
  · rintro code so se rfl
    rfl
  · rintro rfl
    rfl

/-- C1 (witness): the amended theorem at a successful run with two
discovered containers. -/
theorem C1_cleanup_only_on_success_witness :
    (exec_test_action (.ok "out" "") "id1\nid2").2 = none ∧
    Eff.dockerPs ∈ (exec_test_action (.ok "out" "") "id1\nid2").1 ∧
    Eff.rmWorkspace ∈ (exec_test_action (.ok "out" "") "id1\nid2").1 ∧
    Eff.dockerRm (pySplitLines "id1\nid2") ∈
      (exec_test_action (.ok "out" "") "id1\nid2").1 := by
  have h := (C1_cleanup_only_on_success (.ok "out" "") "id1\nid2").1 "out" "" rfl
  exact ⟨h.1, h.2.1, h.2.2.1, h.2.2.2 (by decide)⟩

/-! ### Claim C7: copy_tree -/

lemma noBothPref {src dst : List String} (hds : ¬ dst <+: src)
    (hsd : ¬ src <+: dst) {q : List String} (h1 : src <+: q)
    (h2 : dst <+: q) : False := by
  rcases prefComparable h1 h2 with h | h
  · exact hsd h
  · exact hds h

/-- C7: `copy_tree(src, dst)` (for non-overlapping source and destination)
fails exactly when the source path does not exist; on success the
destination subtree of the result is exactly the source subtree re-rooted
at the destination (old destination content removed, every source entry —
symbolic links included, kept as links — duplicated), and everything
outside the destination is unchanged. -/
theorem C7_copy_tree (fs : List FSNode) (src dst : List String)
    (hds : ¬ dst <+: src) (hsd : ¬ src <+: dst) :
    ((∀ e ∈ fs, e.path ≠ src) → copy_tree fs src dst = .error .sourceNotFound) ∧
    ((∃ e ∈ fs, e.path = src) →
      ∃ fs', copy_tree fs src dst = .ok fs' ∧
        fs'.filter (fun e => dst.isPrefixOf e.path) =
          (subtreeAt fs src).map (rerootOne src dst) ∧
        fs'.filter (fun e => !(dst.isPrefixOf e.path)) =
          fs.filter (fun e => !(dst.isPrefixOf e.path)) ∧
        ∀ x ∈ subtreeAt fs src, rerootOne src dst x ∈ fs') := by
  have hsubtree : subtreeAt (fs.filter (fun e => !(dst.isPrefixOf e.path))) src =
      subtreeAt fs src := by
    unfold subtreeAt
    rw [List.filter_filter]
    apply List.filter_congr
    intro e _
    cases hsp : src.isPrefixOf e.path with
    | false => simp
    | true =>
      simp only [Bool.true_and]
      cases hdp : dst.isPrefixOf e.path with
      | false => simp
      | true =>
        exact (noBothPref hds hsd (prefixOfIff.mp hsp) (prefixOfIff.mp hdp)).elim
  constructor
  · intro hno
    have hcond : (fs.filter (fun e => !(dst.isPrefixOf e.path))).any
        (fun e => e.path == src) = false := by
      rw [List.any_eq_false]
      intro e he
      simp only [beq_iff_eq]
      exact hno e (List.mem_filter.mp he).1
    simp [copy_tree, hcond]
  · rintro ⟨e0, he0, hp0⟩
    have he0' : e0 ∈ fs.filter (fun e => !(dst.isPrefixOf e.path)) := by
      rw [List.mem_filter]
      refine ⟨he0, ?_⟩
      cases hdp : dst.isPrefixOf e0.path with
      | false => rfl
      | true =>
        exact absurd (hp0 ▸ prefixOfIff.mp hdp) hds
    have hcond : (fs.filter (fun e => !(dst.isPrefixOf e.path))).any
        (fun e => e.path == src) = true := by
      rw [List.any_eq_true]
      exact ⟨e0, he0', by simp [hp0]⟩
    refine ⟨(fs.filter (fun e => !(dst.isPrefixOf e.path))) ++
        (subtreeAt (fs.filter (fun e => !(dst.isPrefixOf e.path))) src).map
          (rerootOne src dst),
      by simp [copy_tree, hcond], ?_, ?_, ?_⟩
    · rw [List.filter_append]
      have h1 : (fs.filter (fun e => !(dst.isPrefixOf e.path))).filter
          (fun e => dst.isPrefixOf e.path) = [] := by
        rw [List.filter_eq_nil_iff]
        intro e he
        have := (List.mem_filter.mp he).2
        simp_all
      have h2 : ((subtreeAt (fs.filter (fun e => !(dst.isPrefixOf e.path))) src).map
            (rerootOne src dst)).filter (fun e => dst.isPrefixOf e.path) =
          (subtreeAt (fs.filter (fun e => !(dst.isPrefixOf e.path))) src).map
            (rerootOne src dst) := by
        rw [List.filter_eq_self]
        intro x hx
        obtain ⟨y, _, rfl⟩ := List.mem_map.mp hx
        exact prefixOfIff.mpr ⟨y.path.drop src.length, rfl⟩
      rw [h1, h2, hsubtree, List.nil_append]
    · rw [List.filter_append]
      have h1 : (fs.filter (fun e => !(dst.isPrefixOf e.path))).filter
          (fun e => !(dst.isPrefixOf e.path)) =
          fs.filter (fun e => !(dst.isPrefixOf e.path)) := by
        rw [List.filter_eq_self]
        intro e he
        exact (List.mem_filter.mp he).2
      have h2 : ((subtreeAt (fs.filter (fun e => !(dst.isPrefixOf e.path))) src).map
            (rerootOne src dst)).filter (fun e => !(dst.isPrefixOf e.path)) = [] := by
        rw [List.filter_eq_nil_iff]
        intro x hx
        obtain ⟨y, _, rfl⟩ := List.mem_map.mp hx
        have : dst.isPrefixOf (rerootOne src dst y).path = true :=
          prefixOfIff.mpr ⟨y.path.drop src.length, rfl⟩
        simp [this]
      rw [h1, h2, List.append_nil]
    · intro x hx
      rw [List.mem_append]
      right
      rw [← hsubtree] at hx
      exact List.mem_map.mpr ⟨x, hx, rfl⟩

/-- C7 (witness): copying a source with a symbolic link over a pre-existing
destination. -/
theorem C7_copy_tree_witness :
    ∃ fs', copy_tree
        [⟨["s"], .dir⟩, ⟨["s", "l"], .symlink "t"⟩, ⟨["d"], .dir⟩,
          ⟨["d", "old"], .file [1]⟩] ["s"] ["d"] = .ok fs' ∧
      fs'.filter (fun e => ["d"].isPrefixOf e.path) =
        (subtreeAt [⟨["s"], .dir⟩, ⟨["s", "l"], .symlink "t"⟩, ⟨["d"], .dir⟩,
          ⟨["d", "old"], .file [1]⟩] ["s"]).map (rerootOne ["s"] ["d"]) ∧
      fs'.filter (fun e => !(["d"].isPrefixOf e.path)) =
        [⟨["s"], .dir⟩, ⟨["s", "l"], .symlink "t"⟩, ⟨["d"], .dir⟩,
          ⟨["d", "old"], .file [1]⟩].filter (fun e => !(["d"].isPrefixOf e.path)) ∧
      ∀ x ∈ subtreeAt [⟨["s"], .dir⟩, ⟨["s", "l"], .symlink "t"⟩, ⟨["d"], .dir⟩,
          ⟨["d", "old"], .file [1]⟩] ["s"],
        rerootOne ["s"] ["d"] x ∈ fs' :=
  (C7_copy_tree
    [⟨["s"], .dir⟩, ⟨["s", "l"], .symlink "t"⟩, ⟨["d"], .dir⟩,
      ⟨["d", "old"], .file [1]⟩] ["s"] ["d"] (by decide) (by decide)).2
    ⟨⟨["s"], .dir⟩, by decide, rfl⟩

/-! ### Claim C8: copy_contents -/

lemma dst_pref_childTarget (src dst : List String) (c : FSNode) :
    dst <+: childTarget src dst c :=
  ⟨c.path.drop src.length, rfl⟩

lemma reroot_target_pref (src dst : List String) (c y : FSNode)
    (hcs : src <+: c.path) (hyp : c.path <+: y.path) :
    childTarget src dst c <+: (rerootOne src dst y).path := by
  obtain ⟨t, ht⟩ := hcs
  obtain ⟨r, hr⟩ := hyp
  have hy2 : y.path = src ++ (t ++ r) := by
    rw [← hr, ← ht, List.append_assoc]
  have hcd : c.path.drop src.length = t := by
    rw [← ht, List.drop_left]
  have hyd : y.path.drop src.length = t ++ r := by
    rw [hy2, List.drop_left]
  unfold childTarget rerootOne
  rw [hcd, hyd]
  exact ⟨r, by rw [List.append_assoc]⟩

lemma childTarget_length (src dst : List String) (c : FSNode)
    (hcs : src <+: c.path) (hcl : c.path.length = src.length + 1) :
    (childTarget src dst c).length = dst.length + 1 := by
  have hle := hcs.length_le
  unfold childTarget
  rw [List.length_append, List.length_drop, hcl]
  omega

lemma childTarget_pref_eq (src dst : List String) (a b : FSNode)
    (ha : src <+: a.path) (hal : a.path.length = src.length + 1)
    (hb : src <+: b.path) (hbl : b.path.length = src.length + 1)
    (q : List String) (h1 : childTarget src dst a <+: q)
    (h2 : childTarget src dst b <+: q) : a.path = b.path := by
  have hlen : (childTarget src dst a).length = (childTarget src dst b).length := by
    rw [childTarget_length src dst a ha hal, childTarget_length src dst b hb hbl]
  have heq : childTarget src dst a = childTarget src dst b := by
    rcases prefComparable h1 h2 with h | h
    · exact h.eq_of_length hlen
    · exact (h.eq_of_length hlen.symm).symm
  have hdrop : a.path.drop src.length = b.path.drop src.length := by
    have := congrArg (List.drop dst.length) heq
    simpa [childTarget, List.drop_left] using this
  calc a.path = src ++ a.path.drop src.length := (pref_append_drop ha).symm
    _ = src ++ b.path.drop src.length := by rw [hdrop]
    _ = b.path := pref_append_drop hb

lemma overwriteWith_mem_new (fs new : List FSNode) (x : FSNode)
    (hx : x ∈ new) : x ∈ overwriteWith fs new :=
  List.mem_append.mpr (Or.inr hx)

lemma overwriteWith_mem_keep (fs new : List FSNode) (x : FSNode) (hx : x ∈ fs)
    (h : ∀ nn ∈ new, nn.path ≠ x.path) : x ∈ overwriteWith fs new := by
  unfold overwriteWith
  rw [List.mem_append]
  left
  rw [List.mem_filter]
  refine ⟨hx, ?_⟩
  simp only [Bool.not_eq_true', List.any_eq_false]
  intro nn hnn
  simp only [beq_iff_eq]
  exact h nn hnn

lemma mem_new_dir {src dst : List String} {acc : List FSNode} {c : FSNode}
    {nn : FSNode}
    (hnn : nn ∈ (subtreeAt acc c.path).map (rerootOne src dst)) :
    ∃ y ∈ acc, c.path <+: y.path ∧ nn = rerootOne src dst y := by
  obtain ⟨y, hy, rfl⟩ := List.mem_map.mp hnn
  exact ⟨y, (List.mem_filter.mp hy).1,
    prefixOfIff.mp (List.mem_filter.mp hy).2, rfl⟩

lemma applyChild_frame {src dst : List String} {acc : List FSNode} {c : FSNode}
    (hcs : src <+: c.path) {x : FSNode} (hx : x ∈ acc)
    (hnp : ¬ childTarget src dst c <+: x.path) :
    x ∈ applyChild src dst acc c := by
  cases hn : c.node with
  | symlink t => simpa [applyChild, hn] using hx
  | special => simpa [applyChild, hn] using hx
  | dir =>
    simp only [applyChild, hn]
    apply overwriteWith_mem_keep _ _ _ hx
    intro nn hnn heq
    obtain ⟨y, _, hyp, rfl⟩ := mem_new_dir hnn
    exact hnp (heq ▸ reroot_target_pref src dst c y hcs hyp)
  | file cont =>
    simp only [applyChild, hn]
    apply overwriteWith_mem_keep _ _ _ hx
    intro nn hnn heq
    rw [List.mem_singleton] at hnn
    subst hnn
    exact hnp (heq ▸ List.prefix_rfl)

lemma subtree_stable {src : List String} {base acc : List FSNode}
    (hInv : acc.filter (underSrcB src) = base.filter (underSrcB src))
    {q : List String} (hq : src <+: q) :
    subtreeAt acc q = subtreeAt base q := by
  have key : ∀ l : List FSNode,
      subtreeAt l q = (l.filter (underSrcB src)).filter
        (fun e => q.isPrefixOf e.path) := by
    intro l
    unfold subtreeAt
    rw [List.filter_filter]
    apply List.filter_congr
    intro e _
    cases hqp : q.isPrefixOf e.path with
    | false => simp
    | true =>
      have hu : underSrcB src e = true :=
        prefixOfIff.mpr (hq.trans (prefixOfIff.mp hqp))
      simp [hu]
  rw [key acc, key base, hInv]

lemma applyChild_inv {src dst : List String} (hds : ¬ dst <+: src)
    (hsd : ¬ src <+: dst) {base acc : List FSNode} {c : FSNode}
    (hcs : src <+: c.path)
    (hInv : acc.filter (underSrcB src) = base.filter (underSrcB src)) :
    (applyChild src dst acc c).filter (underSrcB src) =
      base.filter (underSrcB src) := by
  have hkeep : ∀ new : List FSNode,
      (∀ nn ∈ new, dst <+: nn.path) →
      (overwriteWith acc new).filter (underSrcB src) =
        base.filter (underSrcB src) := by
    intro new hnew
    unfold overwriteWith
    rw [List.filter_append]
    have h1 : new.filter (underSrcB src) = [] := by
      rw [List.filter_eq_nil_iff]
      intro nn hnn hu
      exact noBothPref hds hsd (prefixOfIff.mp hu) (hnew nn hnn)
    have h2 : (acc.filter
          (fun e => !(new.any (fun n => n.path == e.path)))).filter
        (underSrcB src) = acc.filter (underSrcB src) := by
      rw [List.filter_filter]
      apply List.filter_congr
      intro e _
      cases hu : underSrcB src e with
      | false => simp
      | true =>
        have hcl : (new.any (fun n => n.path == e.path)) = false := by
          rw [List.any_eq_false]
          intro nn hnn
          simp only [beq_iff_eq]
          intro heq
          exact noBothPref hds hsd (prefixOfIff.mp hu)
            (heq ▸ hnew nn hnn)
        simp [hcl]
    rw [h1, h2, List.append_nil, hInv]
  cases hn : c.node with
  | symlink t => simpa [applyChild, hn] using hInv
  | special => simpa [applyChild, hn] using hInv
  | dir =>
    simp only [applyChild, hn]
    apply hkeep
    intro nn hnn
    obtain ⟨y, _, hyp, rfl⟩ := mem_new_dir hnn
    exact (dst_pref_childTarget src dst c).trans
      (reroot_target_pref src dst c y hcs hyp)
  | file cont =>
    simp only [applyChild, hn]
    apply hkeep
    intro nn hnn
    rw [List.mem_singleton] at hnn
    subst hnn
    exact dst_pref_childTarget src dst c

lemma foldl_keep {src dst : List String} :
    ∀ (children : List FSNode) (acc : List FSNode) (x : FSNode),
      (∀ c ∈ children, src <+: c.path) →
      x ∈ acc →
      (∀ c ∈ children, ¬ childTarget src dst c <+: x.path) →
      x ∈ children.foldl (applyChild src dst) acc := by
  intro children
  induction children with
  | nil =>
    intro acc x _ hx _
    exact hx
  | cons c rest ih =>
    intro acc x hsh hx hnp
    rw [List.foldl_cons]
    exact ih (applyChild src dst acc c) x
      (fun c' hc' => hsh c' (List.mem_cons_of_mem _ hc'))
      (applyChild_frame (hsh c (List.mem_cons_self _ _)) hx
        (hnp c (List.mem_cons_self _ _)))
      (fun c' hc' => hnp c' (List.mem_cons_of_mem _ hc'))

lemma foldl_intro_file {src dst : List String} :
    ∀ (children : List FSNode) (acc : List FSNode),
      (∀ c ∈ children, src <+: c.path ∧ c.path.length = src.length + 1) →
      List.Pairwise (fun a b : FSNode => a.path ≠ b.path) children →
      ∀ c ∈ children, ∀ cont, c.node = .file cont →
        (⟨childTarget src dst c, .file cont⟩ : FSNode) ∈
          children.foldl (applyChild src dst) acc := by
  intro children
  induction children with
  | nil =>
    intro acc _ _ c hc
    exact absurd hc (List.not_mem_nil c)
  | cons hd rest ih =>
    intro acc hsh hpw c hc cont hnode
    rw [List.foldl_cons]
    rcases List.mem_cons.mp hc with rfl | hc'
    · have hstep : (⟨childTarget src dst c, .file cont⟩ : FSNode) ∈
          applyChild src dst acc c := by
        simp only [applyChild, hnode]
        exact overwriteWith_mem_new _ _ _ (List.mem_singleton.mpr rfl)
      apply foldl_keep rest _ _
        (fun c' hc' => (hsh c' (List.mem_cons_of_mem _ hc')).1) hstep
      intro c' hc' hpre
      have hsha := hsh c (List.mem_cons_self _ _)
      have hshb := hsh c' (List.mem_cons_of_mem _ hc')
      have := childTarget_pref_eq src dst c' c hshb.1 hshb.2 hsha.1 hsha.2
        (childTarget src dst c) hpre List.prefix_rfl
      exact (List.pairwise_cons.mp hpw).1 c' hc' this.symm
    · exact ih (applyChild src dst acc hd)
        (fun c' h => hsh c' (List.mem_cons_of_mem _ h))
        (List.pairwise_cons.mp hpw).2 c hc' cont hnode

lemma foldl_intro_dir {src dst : List String} (hds : ¬ dst <+: src)
    (hsd : ¬ src <+: dst) (base : List FSNode) :
    ∀ (children : List FSNode) (acc : List FSNode),
      (∀ c ∈ children, src <+: c.path ∧ c.path.length = src.length + 1) →
      List.Pairwise (fun a b : FSNode => a.path ≠ b.path) children →
      acc.filter (underSrcB src) = base.filter (underSrcB src) →
      ∀ c ∈ children, c.node = .dir → ∀ y ∈ base, c.path <+: y.path →
        rerootOne src dst y ∈ children.foldl (applyChild src dst) acc := by
  intro children
  induction children with
  | nil =>
    intro acc _ _ _ c hc
    exact absurd hc (List.not_mem_nil c)
  | cons hd rest ih =>
    intro acc hsh hpw hInv c hc hnode y hy hyp
    rw [List.foldl_cons]
    rcases List.mem_cons.mp hc with rfl | hc'
    · have hsha := hsh c (List.mem_cons_self _ _)
      have hsub : subtreeAt acc c.path = subtreeAt base c.path :=
        subtree_stable hInv hsha.1
      have hstep : rerootOne src dst y ∈ applyChild src dst acc c := by
        simp only [applyChild, hnode]
        apply overwriteWith_mem_new
        rw [hsub]
        exact List.mem_map.mpr
          ⟨y, List.mem_filter.mpr ⟨hy, prefixOfIff.mpr hyp⟩, rfl⟩
      apply foldl_keep rest _ _
        (fun c' h => (hsh c' (List.mem_cons_of_mem _ h)).1) hstep
      intro c' hc' hpre
      have hshb := hsh c' (List.mem_cons_of_mem _ hc')
      have hpre2 : childTarget src dst c <+: (rerootOne src dst y).path :=
        reroot_target_pref src dst c y hsha.1 hyp
      have := childTarget_pref_eq src dst c' c hshb.1 hshb.2 hsha.1 hsha.2
        ((rerootOne src dst y).path) hpre hpre2
      exact (List.pairwise_cons.mp hpw).1 c' hc' this.symm
    · exact ih (applyChild src dst acc hd)
        (fun c' h => hsh c' (List.mem_cons_of_mem _ h))
        (List.pairwise_cons.mp hpw).2
        (applyChild_inv hds hsd (hsh hd (List.mem_cons_self _ _)).1 hInv)
        c hc' hnode y hy hyp

lemma foldl_keep_paths {src dst : List String} (hds : ¬ dst <+: src)
    (hsd : ¬ src <+: dst) (base : List FSNode) :
    ∀ (children : List FSNode) (acc : List FSNode) (x : FSNode),
      (∀ c ∈ children, (src <+: c.path ∧ c.path.length = src.length + 1)
        ∧ c ∈ base) →
      acc.filter (underSrcB src) = base.filter (underSrcB src) →
      x ∈ acc →
      (∀ y ∈ base, src <+: y.path → dst ++ y.path.drop src.length ≠ x.path) →
      x ∈ children.foldl (applyChild src dst) acc := by
  intro children
  induction children with
  | nil =>
    intro acc x _ _ hx _
    exact hx
  | cons c rest ih =>
    intro acc x hsh hInv hx hno
    rw [List.foldl_cons]
    have hsha := hsh c (List.mem_cons_self _ _)
    have hstep : x ∈ applyChild src dst acc c := by
      cases hn : c.node with
      | symlink t => simpa [applyChild, hn] using hx
      | special => simpa [applyChild, hn] using hx
      | dir =>
        simp only [applyChild, hn]
        apply overwriteWith_mem_keep _ _ _ hx
        intro nn hnn
        obtain ⟨y, hy, hyp, rfl⟩ := mem_new_dir hnn
        have hy2 : y ∈ subtreeAt base c.path := by
          rw [← subtree_stable hInv hsha.1.1]
          exact List.mem_filter.mpr ⟨hy, prefixOfIff.mpr hyp⟩
        exact hno y (List.mem_filter.mp hy2).1 (hsha.1.1.trans hyp)
      | file cont =>
        simp only [applyChild, hn]
        apply overwriteWith_mem_keep _ _ _ hx
        intro nn hnn
        rw [List.mem_singleton] at hnn
        subst hnn
        exact hno c hsha.2 hsha.1.1
    exact ih (applyChild src dst acc c) x
      (fun c' h => hsh c' (List.mem_cons_of_mem _ h))
      (applyChild_inv hds hsd hsha.1.1 hInv) hstep hno

lemma inits_nodup {α : Type} (l : List α) : l.inits.Nodup := by
  induction l with
  | nil => simp
  | cons a t ih =>
    rw [List.inits_cons]
    refine List.Nodup.cons ?_ (ih.map (fun x y h => by injection h))
    intro hmem
    obtain ⟨y, _, hy⟩ := List.mem_map.mp hmem
    exact List.cons_ne_nil a y hy

lemma ensureDirs_nodup (fs : List FSNode) (dst : List String)
    (hnd : (pathsOf fs).Nodup) : (pathsOf (ensureDirs fs dst)).Nodup := by
  unfold ensureDirs pathsOf
  rw [List.map_append, List.map_map]
  have hmm : (List.map ((fun e => e.path) ∘ fun p => (⟨p, .dir⟩ : FSNode))
      (dst.inits.filter
        (fun p => !p.isEmpty && !(fs.any (fun e => e.path == p))))) =
      dst.inits.filter
        (fun p => !p.isEmpty && !(fs.any (fun e => e.path == p))) := by
    apply List.map_id''
    intro x
    rfl
  rw [hmm]
  apply List.Nodup.append hnd ((inits_nodup dst).filter _)
  intro q hq1 hq2
  have := (List.mem_filter.mp hq2).2
  simp only [Bool.and_eq_true, Bool.not_eq_true', List.any_eq_false] at this
  obtain ⟨e, he, rfl⟩ := List.mem_map.mp hq1
  have := this.2 e he
  simp at this

/-- C8: `copy_contents` creates the destination directory and its missing
parents; a regular-file child of the source is copied to the corresponding
destination path (overwriting any entry there); a directory child is merged:
every entry of its subtree appears re-rooted under the destination, while
existing entries whose path no copied entry takes are kept (no wiping); and
the loop body skips special files (sockets, FIFOs, devices) outright. -/
theorem C8_copy_contents (fs : List FSNode) (src dst : List String)
    (hds : ¬ dst <+: src) (hsd : ¬ src <+: dst)
    (hnd : (pathsOf fs).Nodup) :
    (∀ q, q <+: dst → q ≠ [] → (∀ e ∈ fs, e.path ≠ q) →
      (⟨q, .dir⟩ : FSNode) ∈ copy_contents fs src dst) ∧
    (∀ c ∈ directChildren (ensureDirs fs dst) src, ∀ cont,
      c.node = .file cont →
      (⟨childTarget src dst c, .file cont⟩ : FSNode) ∈
        copy_contents fs src dst) ∧
    (∀ c ∈ directChildren (ensureDirs fs dst) src, c.node = .dir →
      ∀ y ∈ fs, c.path <+: y.path →
        rerootOne src dst y ∈ copy_contents fs src dst) ∧
    (∀ x ∈ fs,
      (∀ y ∈ fs, src <+: y.path → dst ++ y.path.drop src.length ≠ x.path) →
      x ∈ copy_contents fs src dst) ∧
    (∀ acc (e : FSNode), e.node = .special → applyChild src dst acc e = acc) := by
  have hsh : ∀ c ∈ directChildren (ensureDirs fs dst) src,
      src <+: c.path ∧ c.path.length = src.length + 1 := by
    intro c hc
    have := (List.mem_filter.mp hc).2
    simp only [Bool.and_eq_true, beq_iff_eq] at this
    exact ⟨prefixOfIff.mp this.1, this.2⟩
  have hmem : ∀ c ∈ directChildren (ensureDirs fs dst) src,
      c ∈ ensureDirs fs dst := by
    intro c hc
    exact (List.mem_filter.mp hc).1
  have hnd1 : (pathsOf (ensureDirs fs dst)).Nodup := ensureDirs_nodup fs dst hnd
  have hpw1 : (ensureDirs fs dst).Pairwise
      (fun a b : FSNode => a.path ≠ b.path) := by
    have := hnd1
    unfold pathsOf at this
    exact (List.pairwise_map).mp this
  have hpw : (directChildren (ensureDirs fs dst) src).Pairwise
      (fun a b : FSNode => a.path ≠ b.path) :=
    hpw1.sublist (List.filter_sublist _)
  have hfs1 : ∀ e ∈ fs, e ∈ ensureDirs fs dst := by
    intro e he
    exact List.mem_append.mpr (Or.inl he)
  have hsrc_base : ∀ y ∈ ensureDirs fs dst, src <+: y.path → y ∈ fs := by
    intro y hy hys
    rcases List.mem_append.mp hy with hy | hy
    · exact hy
    · exfalso
      obtain ⟨q, hq, rfl⟩ := List.mem_map.mp hy
      have hqd : q <+: dst := (List.mem_inits _ _).mp (List.mem_filter.mp hq).1
      exact hsd (hys.trans hqd)
  refine ⟨?_, ?_, ?_, ?_, ?_⟩
  · intro q hqd hqne hqabs
    have hqmem : (⟨q, .dir⟩ : FSNode) ∈ ensureDirs fs dst := by
      apply List.mem_append.mpr
      right
      apply List.mem_map.mpr
      refine ⟨q, List.mem_filter.mpr ⟨(List.mem_inits _ _).mpr hqd, ?_⟩, rfl⟩
      simp only [Bool.and_eq_true, Bool.not_eq_true', List.any_eq_false]
      constructor
      · cases q with
        | nil => exact absurd rfl hqne
        | cons a t => rfl
      · intro e he
        simp only [beq_iff_eq]
        exact hqabs e he
    apply foldl_keep _ _ _ (fun c hc => (hsh c hc).1) hqmem
    intro c hc hpre
    have hlen := (hpre.length_le)
    rw [childTarget_length src dst c (hsh c hc).1 (hsh c hc).2] at hlen
    have hql : ({ path := q, node := NodeKind.dir } : FSNode).path.length =
        q.length := rfl
    have := hqd.length_le
    omega
  · intro c hc cont hnode
    exact foldl_intro_file _ _ hsh hpw c hc cont hnode
  · intro c hc hnode y hy hyp
    exact foldl_intro_dir hds hsd (ensureDirs fs dst) _ _ hsh hpw rfl c hc
      hnode y (hfs1 y hy) hyp
  · intro x hx hno
    apply foldl_keep_paths hds hsd (ensureDirs fs dst) _ _ _
      (fun c hc => ⟨hsh c hc, hmem c hc⟩) rfl (hfs1 x hx)
    intro y hy hys
    exact hno y (hsrc_base y hy hys) hys
  · intro acc e hn
    simp [applyChild, hn]

/-- C8 (witness): the overlay scenario — destination pre-populated with
`a.txt`, source containing only `b.txt`; afterwards the destination holds
the untouched `a.txt` and the new `b.txt`. -/
theorem C8_copy_contents_witness :
    (⟨["d", "b.txt"], .file [66]⟩ : FSNode) ∈
      copy_contents [⟨["d"], .dir⟩, ⟨["d", "a.txt"], .file [65]⟩,
        ⟨["s"], .dir⟩, ⟨["s", "b.txt"], .file [66]⟩] ["s"] ["d"] ∧
    (⟨["d", "a.txt"], .file [65]⟩ : FSNode) ∈
      copy_contents [⟨["d"], .dir⟩, ⟨["d", "a.txt"], .file [65]⟩,
        ⟨["s"], .dir⟩, ⟨["s", "b.txt"], .file [66]⟩] ["s"] ["d"] := by
  have h := C8_copy_contents
    [⟨["d"], .dir⟩, ⟨["d", "a.txt"], .file [65]⟩,
      ⟨["s"], .dir⟩, ⟨["s", "b.txt"], .file [66]⟩] ["s"] ["d"]
    (by decide) (by decide) (by decide)
  constructor
  · exact h.2.1 ⟨["s", "b.txt"], .file [66]⟩ (by decide) [66] rfl
  · exact h.2.2.2.1 ⟨["d", "a.txt"], .file [65]⟩ (by decide) (by decide)

end Smoke
